import Mathlib

/-!
Verification of the safekeeper source-code templating tool (safekeeper.go).

The tool reads a template file `<input>.safekeeper` line by line, replaces each
occurrence of a placeholder token (the literal string obtained by prepending
the fixed prefix to a key name) by the value of the corresponding environment
variable, drops template lines that echo the tool's own regeneration
directive, and writes a generated-file header followed by the transformed
body.

Strings are modelled as `List Char`.  The single-pattern `strings.Replacer`
of the Go standard library replaces non-overlapping occurrences of its
pattern left to right; it is modelled by `replaceAll` below via the
fuel-indexed `replaceAllF` so that it computes by structural recursion.
-/

set_option autoImplicit false

deriving instance DecidableEq for Except

namespace Safekeeper

/-- One pass of a single-pattern `strings.Replacer` with explicit fuel.
With fuel at least the length of the subject string this scans left to
right: whenever the pattern is a prefix of the remaining input, it emits
the replacement value and continues after the matched occurrence;
otherwise it copies one character. -/
def replaceAllF : Nat → List Char → List Char → List Char → List Char
  | 0, _, _, s => s
  | _ + 1, _, _, [] => []
  | n + 1, pat, val, c :: rest =>
    if pat ≠ [] ∧ pat <+: (c :: rest) then
      val ++ replaceAllF n pat val ((c :: rest).drop pat.length)
    else
      c :: replaceAllF n pat val rest

/-- `strings.Replacer(pat, val).Replace`: replace the non-overlapping
occurrences of `pat` in `s` by `val`, scanning left to right. -/
def replaceAll (pat val s : List Char) : List Char :=
  replaceAllF s.length pat val s

/-- Semantics of `strings.Split(s, sep)` for a one-character separator:
the list of the separated fields, always non-empty. -/
def splitOnChar (sep : Char) : List Char → List (List Char)
  | [] => [[]]
  | c :: rest =>
    match splitOnChar sep rest with
    | [] => [[c]]
    | f :: gs => if c = sep then [] :: f :: gs else (c :: f) :: gs

/-- The `dropCR` step of `bufio.ScanLines`: remove one trailing carriage
return from a scanned line, if present. -/
def dropCR (l : List Char) : List Char :=
  if l.getLast? = some '\r' then l.dropLast else l

/-- The sequence of lines produced by a `bufio.Scanner` with `ScanLines`:
the newline-separated fields, except that the empty field after a final
newline produces no token, each with a trailing carriage return removed. -/
def scanLines (s : List Char) : List (List Char) :=
  (if (splitOnChar '\n' s).getLast? = some [] then
      (splitOnChar '\n' s).dropLast
    else
      splitOnChar '\n' s).map dropCR

/-- The condition under which `substituteValues` drops a template line:
the line mentions both the regeneration directive token and the tool name
(`strings.Contains(line, "go:generate") && strings.Contains(line, "safekeeper")`). -/
def isGenerateDirective (line : List Char) : Prop :=
  "go:generate".toList <:+: line ∧ "safekeeper".toList <:+: line

instance (line : List Char) : Decidable (isGenerateDirective line) :=
  inferInstanceAs (Decidable (_ ∧ _))

/-- The placeholder token of a key: the fixed prefix followed by the key
name (`fmt.Sprintf` of the key with the fixed prefix). -/
def envToken (key : List Char) : List Char :=
  "ENV_".toList ++ key

/-- `setupReplacers`: one substitution rule per key/value pair, the
pattern being the key's placeholder token. -/
def setupReplacers (keyValues : List (List Char × List Char)) :
    List (List Char × List Char) :=
  keyValues.map (fun e => (envToken e.1, e.2))

/-- The inner loop of `substituteValues` on one line: each replacer is
applied in turn to the (possibly already rewritten) line. -/
def applyReplacers (replacers : List (List Char × List Char)) (line : List Char) :
    List Char :=
  replacers.foldl (fun l r => replaceAll r.1 r.2 l) line

/-- The scanning loop of `substituteValues`: the transformed body
accumulated in the output buffer.  Directive-echo lines are skipped;
every other line is rewritten by all replacers and appended together
with a trailing newline (`fmt.Sprintln`). -/
def substituteValues (replacers : List (List Char × List Char))
    (content : List Char) : List Char :=
  (scanLines content).foldl
    (fun buffer line =>
      if isGenerateDirective line then buffer
      else buffer ++ applyReplacers replacers line ++ ['\n'])
    []

/-- The fixed warning comment emitted as the first line of the header. -/
def warningLine : List Char :=
  "// GENERATED by safekeeper (https://github.com/alexandre-normand/safekeeper, DO NOT EDIT".toList

/-- The regeneration directive emitted by `writeHeader`: the tool
invocation with the keys flag, the output flag when set, and the
caller-relative source file reference, all on one line. -/
def directiveLine (keyNames outputFlag : List Char) : List Char :=
  ("//go:generate safekeeper --keys=".toList ++ keyNames)
    ++ (if outputFlag = [] then [] else " --output=".toList ++ outputFlag)
    ++ " $GOFILE".toList

/-- `writeHeader`: the generated-file header written before the body.
The warning comment is written with a newline; the directive, the
optional output flag and the source reference are written without
intervening newlines, followed by one final newline. -/
def writeHeader (keyNames outputFlag : List Char) : List Char :=
  (warningLine ++ ['\n']) ++ (directiveLine keyNames outputFlag ++ ['\n'])

/-- The failure conditions of a run.  `log.Fatal` in the Go source is
modelled by returning the corresponding error value. -/
inductive RunError where
  | missingEnvironmentVariable (key : List Char)
  | unsupportedInput
  | statFailure (path : List Char)
  | templateNotFound (path : List Char)
  deriving DecidableEq

/-- What `os.Stat` reports about a path. -/
inductive FileStat where
  | file
  | dir
  | absent
  deriving DecidableEq

/-- The ambient process state a run consults: the environment
(`os.Getenv`), the stat result of a path (`os.Stat` / `isFile`) and the
readable files (`os.Open` and reading to completion). -/
structure Sys where
  env : List Char → List Char
  stat : List Char → FileStat
  read : List Char → Option (List Char)

/-- `loadKeyValues`: resolve each key against the environment, in the
order the keys were supplied, failing on the first key whose value is
empty or unset (`os.Getenv` returns the empty string for both). -/
def loadKeyValues (keys : List (List Char)) (env : List Char → List Char) :
    Except RunError (List (List Char × List Char)) :=
  match keys with
  | [] => .ok []
  | key :: rest =>
    if env key = [] then .error (.missingEnvironmentVariable key)
    else
      match loadKeyValues rest env with
      | .error e => .error e
      | .ok kvs => .ok ((key, env key) :: kvs)

/-- `run`: the whole pipeline.  The keys flag is split on commas and
resolved; exactly one input path naming a plain file is required; the
template is the file named by the input path with the fixed suffix
appended; on success the result is the output path (the input path
unless the output flag is set) and the written content, header followed
by transformed body.

The replacers are built from a Go map, whose iteration order is
unspecified; `mapIter` stands for the order the map iteration happens to
produce, a permutation of the entry list (duplicate keys collapse to one
map entry, modelled by `List.dedup`). -/
def run (mapIter : List (List Char × List Char) → List (List Char × List Char))
    (keyNames outputFlag : List Char) (inputPaths : List (List Char))
    (sys : Sys) : Except RunError (List Char × List Char) :=
  match loadKeyValues (splitOnChar ',' keyNames) sys.env with
  | .error e => .error e
  | .ok keyValues =>
    match inputPaths with
    | [p] =>
      match sys.stat p with
      | .absent => .error (.statFailure p)
      | .dir => .error .unsupportedInput
      | .file =>
        match sys.read (p ++ ".safekeeper".toList) with
        | none => .error (.templateNotFound (p ++ ".safekeeper".toList))
        | some content =>
          .ok ((if outputFlag = [] then p else outputFlag),
            writeHeader keyNames outputFlag
              ++ substituteValues (setupReplacers (mapIter keyValues.dedup)) content)
    | _ => .error .unsupportedInput

/-- Fuel-indexed simultaneous replacement by two patterns: at each
position the first of the two patterns that matches is replaced.  Proof
scaffolding used to analyse in which order two replacers may be applied. -/
def replaceSim2F : Nat → List Char → List Char → List Char → List Char →
    List Char → List Char
  | 0, _, _, _, _, s => s
  | _ + 1, _, _, _, _, [] => []
  | n + 1, p1, v1, p2, v2, c :: rest =>
    if p1 ≠ [] ∧ p1 <+: (c :: rest) then
      v1 ++ replaceSim2F n p1 v1 p2 v2 ((c :: rest).drop p1.length)
    else if p2 ≠ [] ∧ p2 <+: (c :: rest) then
      v2 ++ replaceSim2F n p1 v1 p2 v2 ((c :: rest).drop p2.length)
    else
      c :: replaceSim2F n p1 v1 p2 v2 rest

/-- Simultaneous replacement by two patterns in one left-to-right scan. -/
def replaceSim2 (p1 v1 p2 v2 s : List Char) : List Char :=
  replaceSim2F s.length p1 v1 p2 v2 s

/-- Whether occurrences of the two patterns can intersect in some
string: one pattern occurs inside the other, or a non-empty suffix of
one is a prefix of the other. -/
def overlaps (t1 t2 : List Char) : Bool :=
  (t1.tails.any fun w => !w.isEmpty && w.isPrefixOf t2) ||
  (t2.tails.any fun w => !w.isEmpty && w.isPrefixOf t1) ||
  (t2.tails.any t1.isPrefixOf) ||
  (t1.tails.any t2.isPrefixOf)

/-! ### Equation lemmas for `replaceAll` -/

theorem replaceAllF_congr (pat val : List Char) :
    ∀ (n m : Nat) (s : List Char), s.length ≤ n → s.length ≤ m →
      replaceAllF n pat val s = replaceAllF m pat val s := by
  intro n
  induction n with
  | zero =>
    intro m s hn _
    have hs : s = [] := List.length_eq_zero.mp (Nat.le_zero.mp hn)
    subst hs
    cases m <;> rfl
  | succ n ih =>
    intro m s hn hm
    match s, m with
    | [], 0 => rfl
    | [], m + 1 => rfl
    | c :: rest, 0 => simp at hm
    | c :: rest, m + 1 =>
      simp only [replaceAllF]
      by_cases h : pat ≠ [] ∧ pat <+: (c :: rest)
      · rw [if_pos h, if_pos h]
        have hp : 1 ≤ pat.length := by
          cases pat with
          | nil => exact absurd rfl h.1
          | cons a l => simp
        have hlen : ((c :: rest).drop pat.length).length ≤ n := by
          simp only [List.length_drop, List.length_cons] at *
          omega
        have hlen' : ((c :: rest).drop pat.length).length ≤ m := by
          simp only [List.length_drop, List.length_cons] at *
          omega
        rw [ih _ _ hlen hlen']
      · rw [if_neg h, if_neg h]
        have hlen : rest.length ≤ n := by simp at hn; omega
        have hlen' : rest.length ≤ m := by simp at hm; omega
        rw [ih _ _ hlen hlen']

theorem replaceAll_nil (pat val : List Char) : replaceAll pat val [] = [] := rfl

theorem replaceAll_pos {pat : List Char} (val : List Char) {s : List Char}
    (hp : pat ≠ []) (hpre : pat <+: s) :
    replaceAll pat val s = val ++ replaceAll pat val (s.drop pat.length) := by
  match s with
  | [] =>
    exact absurd (List.prefix_nil.mp hpre) hp
  | c :: rest =>
    show replaceAllF (c :: rest).length pat val (c :: rest) = _
    simp only [List.length_cons, replaceAllF, if_pos (And.intro hp hpre)]
    congr 1
    apply replaceAllF_congr
    · have hp1 : 1 ≤ pat.length := by
        cases pat with
        | nil => exact absurd rfl hp
        | cons a l => simp
      simp only [List.length_drop, List.length_cons]
      omega
    · exact Nat.le_refl _

theorem replaceAll_neg {pat : List Char} (val : List Char) {c : Char}
    {rest : List Char} (h : ¬(pat ≠ [] ∧ pat <+: (c :: rest))) :
    replaceAll pat val (c :: rest) = c :: replaceAll pat val rest := by
  show replaceAllF (c :: rest).length pat val (c :: rest) = _
  simp only [List.length_cons, replaceAllF, if_neg h]
  rfl

/-! ### Lines and splitting -/

theorem splitOnChar_ne_nil (sep : Char) (s : List Char) : splitOnChar sep s ≠ [] := by
  cases s with
  | nil => simp [splitOnChar]
  | cons c rest =>
    simp only [splitOnChar]
    match splitOnChar sep rest with
    | [] => simp
    | f :: gs =>
      by_cases h : c = sep
      · simp [h]
      · simp [h]

theorem splitOnChar_append_sep (sep : Char) (a rest : List Char) (ha : sep ∉ a) :
    splitOnChar sep (a ++ sep :: rest) = a :: splitOnChar sep rest := by
  induction a with
  | nil =>
    simp only [List.nil_append, splitOnChar]
    match h : splitOnChar sep rest with
    | [] => exact absurd h (splitOnChar_ne_nil sep rest)
    | f :: gs => simp
  | cons c a ih =>
    have hc : c ≠ sep := by
      intro hcs
      exact ha (hcs ▸ List.mem_cons_self c a)
    have ha' : sep ∉ a := fun hm => ha (List.mem_cons_of_mem c hm)
    simp only [List.cons_append, splitOnChar, List.append_eq]
    rw [ih ha']
    simp [hc]

theorem scanLines_cons (a rest : List Char) (ha : ('\n' : Char) ∉ a) :
    scanLines (a ++ '\n' :: rest) = dropCR a :: scanLines rest := by
  simp only [scanLines, splitOnChar_append_sep '\n' a rest ha]
  match h : splitOnChar '\n' rest with
  | [] => exact absurd h (splitOnChar_ne_nil '\n' rest)
  | f :: gs =>
    rw [List.getLast?_cons_cons]
    by_cases hlast : (f :: gs).getLast? = some []
    · simp [hlast, List.dropLast_cons₂]
    · simp [hlast]

theorem scanLines_single (a : List Char) (ha : ('\n' : Char) ∉ a) (hne : a ≠ []) :
    scanLines a = [dropCR a] := by
  have hsplit : splitOnChar '\n' a = [a] := by
    induction a with
    | nil => simp [splitOnChar]
    | cons c t ih =>
      have hc : c ≠ '\n' := by
        intro hcs
        exact ha (hcs ▸ List.mem_cons_self c t)
      have ht : ('\n' : Char) ∉ t := fun hm => ha (List.mem_cons_of_mem c hm)
      by_cases hte : t = []
      · subst hte
        simp [splitOnChar, hc]
      · rw [splitOnChar, ih ht hte]
        simp [hc]
  simp only [scanLines, hsplit]
  have : (([a] : List (List Char)).getLast? = some []) ↔ a = [] := by simp
  rw [List.getLast?_singleton]
  simp [hne]

/-! ### The body as a flat list of per-line chunks -/

theorem foldl_buffer_eq (g : List Char → List Char) :
    ∀ (ls : List (List Char)) (init : List Char),
      ls.foldl (fun buffer l => buffer ++ g l) init = init ++ (ls.map g).flatten := by
  intro ls
  induction ls with
  | nil => intro init; simp
  | cons l t ih =>
    intro init
    simp only [List.foldl_cons, ih, List.map_cons, List.flatten_cons, List.append_assoc]

/-- The transformed body is the concatenation over the scanned lines of
the rewritten line plus one newline, with directive-echo lines
contributing nothing. -/
theorem substituteValues_eq_flatten (replacers : List (List Char × List Char))
    (content : List Char) :
    substituteValues replacers content =
      ((scanLines content).map fun line =>
        if isGenerateDirective line then []
        else applyReplacers replacers line ++ ['\n']).flatten := by
  have hfun : (fun (buffer line : List Char) =>
      if isGenerateDirective line then buffer
      else buffer ++ applyReplacers replacers line ++ ['\n']) =
      fun buffer line => buffer ++
        (if isGenerateDirective line then []
         else applyReplacers replacers line ++ ['\n']) := by
    funext buffer line
    by_cases h : isGenerateDirective line
    · simp [h]
    · simp [h, List.append_assoc]
  simp only [substituteValues, hfun, foldl_buffer_eq, List.nil_append]

theorem substituteValues_getLast? (replacers : List (List Char × List Char))
    (content : List Char) :
    substituteValues replacers content = [] ∨
      (substituteValues replacers content).getLast? = some '\n' := by
  rw [substituteValues_eq_flatten]
  induction scanLines content with
  | nil => exact Or.inl rfl
  | cons l t ih =>
    simp only [List.map_cons, List.flatten_cons]
    by_cases h : isGenerateDirective l
    · simpa [h] using ih
    · rcases ih with hnil | hlast
      · rw [hnil, List.append_nil]
        right
        simp [h, List.getLast?_append]
      · right
        rw [List.getLast?_append, hlast]
        simp

/-! ### Resolving keys -/

theorem loadKeyValues_ok (keys : List (List Char)) (env : List Char → List Char)
    (h : ∀ k ∈ keys, env k ≠ []) :
    loadKeyValues keys env = .ok (keys.map fun k => (k, env k)) := by
  induction keys with
  | nil => rfl
  | cons key rest ih =>
    have hk : env key ≠ [] := h key (List.mem_cons_self key rest)
    have hr : ∀ k ∈ rest, env k ≠ [] := fun k hm => h k (List.mem_cons_of_mem key hm)
    simp only [loadKeyValues, if_neg hk, ih hr, List.map_cons]

theorem loadKeyValues_error_of_find (keys : List (List Char))
    (env : List Char → List Char) (k : List Char)
    (h : keys.find? (fun j => (env j).isEmpty) = some k) :
    loadKeyValues keys env = .error (.missingEnvironmentVariable k) := by
  induction keys with
  | nil => simp [List.find?] at h
  | cons key rest ih =>
    by_cases hk : (env key).isEmpty
    · rw [@List.find?_cons_of_pos _ (fun j => (env j).isEmpty) key rest hk] at h
      have hkey : env key = [] := List.isEmpty_iff.mp hk
      have : key = k := by injection h
      subst this
      simp [loadKeyValues, hkey]
    · rw [@List.find?_cons_of_neg _ (fun j => (env j).isEmpty) key rest hk] at h
      have hkey : env key ≠ [] := fun he => hk (List.isEmpty_iff.mpr he)
      simp only [loadKeyValues, if_neg hkey, ih h]

/-! ### Header structure -/

theorem dropCR_warningLine : dropCR warningLine = warningLine := by decide

theorem directiveLine_getLast? (keyNames outputFlag : List Char) :
    (directiveLine keyNames outputFlag).getLast? = some 'E' := by
  simp only [directiveLine, List.getLast?_append]
  rfl

theorem dropCR_directiveLine (keyNames outputFlag : List Char) :
    dropCR (directiveLine keyNames outputFlag) = directiveLine keyNames outputFlag := by
  simp [dropCR, directiveLine_getLast? keyNames outputFlag]

theorem newline_not_mem_directiveLine {keyNames outputFlag : List Char}
    (hk : ('\n' : Char) ∉ keyNames) (ho : ('\n' : Char) ∉ outputFlag) :
    ('\n' : Char) ∉ directiveLine keyNames outputFlag := by
  intro hm
  simp only [directiveLine, List.mem_append] at hm
  rcases hm with (hm | hm) | hm
  · rcases hm with hm | hm
    · exact absurd hm (by decide)
    · exact hk hm
  · by_cases h : outputFlag = []
    · rw [if_pos h] at hm
      exact absurd hm (List.not_mem_nil _)
    · rw [if_neg h] at hm
      rcases List.mem_append.mp hm with hm | hm
      · exact absurd hm (by decide)
      · exact ho hm
  · exact absurd hm (by decide)

theorem writeHeader_getLast? (keyNames outputFlag : List Char) :
    (writeHeader keyNames outputFlag).getLast? = some '\n' := by
  rw [writeHeader, List.getLast?_append, List.getLast?_concat]
  rfl

/-- C1 (amended): the generated output begins with a two-line header.
Line 1 is the fixed warning comment; line 2 is the regeneration
directive carrying the keys flag, the output flag when set, and,
at the end of the same line, the caller-relative source file reference;
the body starts on line 3. -/
theorem writeHeader_two_line_structure (keyNames outputFlag body : List Char)
    (hk : ('\n' : Char) ∉ keyNames) (ho : ('\n' : Char) ∉ outputFlag) :
    scanLines (writeHeader keyNames outputFlag ++ body)
        = warningLine :: directiveLine keyNames outputFlag :: scanLines body ∧
      "$GOFILE".toList <:+ directiveLine keyNames outputFlag := by
  constructor
  · have h1 : ('\n' : Char) ∉ warningLine := by decide
    have h2 := newline_not_mem_directiveLine hk ho
    have hsplit : writeHeader keyNames outputFlag ++ body
        = warningLine ++ '\n' :: (directiveLine keyNames outputFlag ++ '\n' :: body) := by
      simp [writeHeader, List.append_assoc]
    rw [hsplit, scanLines_cons _ _ h1, scanLines_cons _ _ h2,
      dropCR_warningLine, dropCR_directiveLine]
  · refine ⟨("//go:generate safekeeper --keys=".toList ++ keyNames)
      ++ (if outputFlag = [] then [] else " --output=".toList ++ outputFlag) ++ " ".toList, ?_⟩
    simp [directiveLine, List.append_assoc]

/-- C1 counterexample: with one key and no output flag the full output
for a one-line body has exactly three lines, of which line 2 (not a
separate line 3) carries the source file reference and line 3 is
already the body.  The header therefore has two lines, not three. -/
theorem writeHeader_three_line_claim_fails :
    scanLines (writeHeader "FOO".toList [] ++ ('b' :: ['\n']))
        = [warningLine, directiveLine "FOO".toList [], ['b']] ∧
      "$GOFILE".toList <:+: directiveLine "FOO".toList [] ∧
      (scanLines (writeHeader "FOO".toList [] ++ ('b' :: ['\n']))).length = 3 := by
  decide

/-- Witness for the amended C1 at concrete flags and body. -/
theorem writeHeader_two_line_structure_witness :
    (('\n' : Char) ∉ "FOO".toList ∧ ('\n' : Char) ∉ "out.go".toList) ∧
      (scanLines (writeHeader "FOO".toList "out.go".toList ++ ('a' :: ['\n']))
          = warningLine :: directiveLine "FOO".toList "out.go".toList
              :: scanLines ('a' :: ['\n']) ∧
        "$GOFILE".toList <:+ directiveLine "FOO".toList "out.go".toList) :=
  ⟨⟨by decide, by decide⟩,
    writeHeader_two_line_structure "FOO".toList "out.go".toList ('a' :: ['\n'])
      (by decide) (by decide)⟩

/-! ### Failure conditions of a run -/

/-- C5: when some supplied key resolves to an empty or unset value, the
run aborts with the missing-environment-variable condition naming the
first such key in supplied order, whatever the file system looks like:
the template is never consulted and no output is produced. -/
theorem run_reports_first_missing_key
    (mapIter : List (List Char × List Char) → List (List Char × List Char))
    (keyNames outputFlag : List Char) (inputPaths : List (List Char))
    (env : List Char → List Char)
    (h : ∃ k ∈ splitOnChar ',' keyNames, env k = []) :
    ∃ k, (splitOnChar ',' keyNames).find? (fun j => (env j).isEmpty) = some k ∧
      env k = [] ∧
      ∀ (stat : List Char → FileStat) (fs : List Char → Option (List Char)),
        run mapIter keyNames outputFlag inputPaths ⟨env, stat, fs⟩
          = .error (.missingEnvironmentVariable k) := by
  obtain ⟨k0, hk0, hk0e⟩ := h
  have hsome : ((splitOnChar ',' keyNames).find? (fun j => (env j).isEmpty)).isSome := by
    rw [List.find?_isSome]
    exact ⟨k0, hk0, by simp [hk0e]⟩
  obtain ⟨k, hk⟩ := Option.isSome_iff_exists.mp hsome
  refine ⟨k, hk, ?_, ?_⟩
  · have := List.find?_some hk
    simpa using this
  · intro stat fs
    have hload := loadKeyValues_error_of_find _ env k hk
    simp [run, hload]

/-- Witness for C5: keys `A,B,C` with `B` and `C` unset abort naming `B`. -/
theorem run_reports_first_missing_key_witness :
    (∃ k ∈ splitOnChar ',' "A,B,C".toList,
        (fun j => if j = "A".toList then "1".toList else []) k = []) ∧
      ∃ k, (splitOnChar ',' "A,B,C".toList).find?
            (fun j => ((fun j => if j = "A".toList then "1".toList else []) j).isEmpty)
          = some k ∧
        (fun j => if j = "A".toList then "1".toList else []) k = [] ∧
        ∀ (stat : List Char → FileStat) (fs : List Char → Option (List Char)),
          run id "A,B,C".toList [] [['f']]
              ⟨fun j => if j = "A".toList then "1".toList else [], stat, fs⟩
            = .error (.missingEnvironmentVariable "B".toList) := by
  constructor
  · exact ⟨"B".toList, by decide, by decide⟩
  · obtain ⟨k, hk, hke, hrun⟩ := run_reports_first_missing_key id "A,B,C".toList []
      [['f']] (fun j => if j = "A".toList then "1".toList else [])
      ⟨"B".toList, by decide, by decide⟩
    have hkB : k = "B".toList := by
      have : (splitOnChar ',' "A,B,C".toList).find?
          (fun j => ((fun j => if j = "A".toList then "1".toList else []) j).isEmpty)
          = some "B".toList := by decide
      rw [this] at hk
      injection hk with h
      exact h.symm
    subst hkB
    exact ⟨"B".toList, hk, hke, hrun⟩

/-- C6: any input specification that is not exactly one path naming a
plain file is rejected with a failure condition; no output is produced
and no file content is ever consulted. -/
theorem run_rejects_non_single_file_input
    (mapIter : List (List Char × List Char) → List (List Char × List Char))
    (keyNames outputFlag : List Char) (inputPaths : List (List Char)) (sys : Sys)
    (h : ¬ ∃ p, inputPaths = [p] ∧ sys.stat p = .file) :
    (∃ e, run mapIter keyNames outputFlag inputPaths sys = .error e) ∧
      ∀ fs : List Char → Option (List Char),
        run mapIter keyNames outputFlag inputPaths ⟨sys.env, sys.stat, fs⟩
          = run mapIter keyNames outputFlag inputPaths sys := by
  obtain ⟨env, stat, fs0⟩ := sys
  simp only at h
  cases hload : loadKeyValues (splitOnChar ',' keyNames) env with
  | error e =>
    refine ⟨⟨e, by simp [run, hload]⟩, fun fs => by simp [run, hload]⟩
  | ok kv =>
    match inputPaths, h with
    | [], h =>
      exact ⟨⟨.unsupportedInput, by simp [run, hload]⟩, fun fs => by simp [run, hload]⟩
    | [p], h =>
      have hstat : stat p ≠ .file := by
        intro hf
        exact h ⟨p, rfl, hf⟩
      cases hs : stat p with
      | file => exact absurd hs hstat
      | dir =>
        exact ⟨⟨.unsupportedInput, by simp [run, hload, hs]⟩,
          fun fs => by simp [run, hload, hs]⟩
      | absent =>
        exact ⟨⟨.statFailure p, by simp [run, hload, hs]⟩,
          fun fs => by simp [run, hload, hs]⟩
    | p :: q :: t, h =>
      exact ⟨⟨.unsupportedInput, by simp [run, hload]⟩, fun fs => by simp [run, hload]⟩

/-- Witness for C6: two input paths are rejected whatever the files hold. -/
theorem run_rejects_non_single_file_input_witness :
    (¬ ∃ p, [['f'], ['g']] = [p] ∧
        (⟨fun _ => "1".toList, fun _ => .file, fun _ => none⟩ : Sys).stat p = .file) ∧
      ((∃ e, run id "A".toList [] [['f'], ['g']]
            ⟨fun _ => "1".toList, fun _ => .file, fun _ => none⟩ = .error e) ∧
        ∀ fs : List Char → Option (List Char),
          run id "A".toList [] [['f'], ['g']]
              ⟨(⟨fun _ => "1".toList, fun _ => .file, fun _ => none⟩ : Sys).env,
                (⟨fun _ => "1".toList, fun _ => .file, fun _ => none⟩ : Sys).stat, fs⟩
            = run id "A".toList [] [['f'], ['g']]
                ⟨fun _ => "1".toList, fun _ => .file, fun _ => none⟩) := by
  constructor
  · rintro ⟨p, hp, -⟩
    simp at hp
  · exact run_rejects_non_single_file_input id "A".toList [] [['f'], ['g']]
      ⟨fun _ => "1".toList, fun _ => .file, fun _ => none⟩
      (by rintro ⟨p, hp, -⟩; simp at hp)

/-- C7: the template consulted is exactly the input path with the fixed
suffix appended.  If that file cannot be opened (once the environment
and the input path check out) the run fails with the template-not-found
condition; and the run result depends on the readable files only
through the file at that one name. -/
theorem run_template_is_input_plus_suffix
    (mapIter : List (List Char × List Char) → List (List Char × List Char))
    (keyNames outputFlag p : List Char) (sys : Sys) :
    ((∀ k ∈ splitOnChar ',' keyNames, sys.env k ≠ []) →
      sys.stat p = .file →
      sys.read (p ++ ".safekeeper".toList) = none →
      run mapIter keyNames outputFlag [p] sys
        = .error (.templateNotFound (p ++ ".safekeeper".toList))) ∧
    ∀ sys' : Sys, sys.env = sys'.env → sys.stat = sys'.stat →
      sys.read (p ++ ".safekeeper".toList) = sys'.read (p ++ ".safekeeper".toList) →
      run mapIter keyNames outputFlag [p] sys = run mapIter keyNames outputFlag [p] sys' := by
  obtain ⟨env, stat, fs⟩ := sys
  constructor
  · intro henv hstat hread
    simp only at henv hstat hread
    have hload := loadKeyValues_ok _ env henv
    simp only [run, hload, hstat]
    rw [hread]
  · intro sys' henv hstat hread
    obtain ⟨env', stat', fs'⟩ := sys'
    simp only at henv hstat hread
    subst henv
    subst hstat
    cases hload : loadKeyValues (splitOnChar ',' keyNames) env with
    | error e => simp [run, hload]
    | ok kv =>
      cases hs : stat p with
      | file =>
        simp only [run, hload, hs]
        rw [hread]
      | dir => simp [run, hload, hs]
      | absent => simp [run, hload, hs]

/-- Witness for C7 at a concrete system whose only file is the input
path itself, so the appended-suffix template is missing. -/
theorem run_template_is_input_plus_suffix_witness :
    ((∀ k ∈ splitOnChar ',' "A".toList,
        (fun (_ : List Char) => "1".toList) k ≠ []) ∧
      run id "A".toList [] [['f']]
          ⟨fun _ => "1".toList, fun _ => .file,
            fun q => if q = ['f'] then some "x".toList else none⟩
        = .error (.templateNotFound (['f'] ++ ".safekeeper".toList))) := by
  constructor
  · intro k hk
    simp
  · exact (run_template_is_input_plus_suffix id "A".toList [] ['f']
      ⟨fun _ => "1".toList, fun _ => .file,
        fun q => if q = ['f'] then some "x".toList else none⟩).1
      (by intro k hk; simp) (by rfl) (by decide)

/-- C9: a keys flag whose comma-split contains an empty element always
aborts with the missing-environment-variable condition (the empty key
name's environment lookup yields the empty value), so no output is
produced. -/
theorem run_aborts_on_empty_key_element
    (mapIter : List (List Char × List Char) → List (List Char × List Char))
    (keyNames outputFlag : List Char) (inputPaths : List (List Char)) (sys : Sys)
    (hsplit : [] ∈ splitOnChar ',' keyNames)
    (henv : sys.env [] = []) :
    ∃ k, run mapIter keyNames outputFlag inputPaths sys
        = .error (.missingEnvironmentVariable k) := by
  obtain ⟨env, stat, fs⟩ := sys
  simp only at henv
  have hsome : ((splitOnChar ',' keyNames).find? (fun j => (env j).isEmpty)).isSome := by
    rw [List.find?_isSome]
    exact ⟨[], hsplit, by simp [henv]⟩
  obtain ⟨k, hk⟩ := Option.isSome_iff_exists.mp hsome
  exact ⟨k, by simp [run, loadKeyValues_error_of_find _ env k hk]⟩

/-- Witness for C9: a trailing comma in the keys flag aborts the run
even though every named key has a value. -/
theorem run_aborts_on_empty_key_element_witness :
    ([] ∈ splitOnChar ',' "A,".toList ∧
      (fun j => if j = "A".toList then "1".toList else []) ([] : List Char) = []) ∧
    ∃ k, run id "A,".toList [] [['f']]
        ⟨fun j => if j = "A".toList then "1".toList else [],
          fun _ => .file, fun _ => some []⟩
        = .error (.missingEnvironmentVariable k) :=
  ⟨⟨by decide, by decide⟩,
    run_aborts_on_empty_key_element id "A,".toList [] [['f']]
      ⟨fun j => if j = "A".toList then "1".toList else [],
        fun _ => .file, fun _ => some []⟩
      (by decide) (by decide)⟩

/-! ### Newline discipline of the output -/

theorem output_getLast? (keyNames outputFlag : List Char)
    (replacers : List (List Char × List Char)) (content : List Char) :
    (writeHeader keyNames outputFlag ++ substituteValues replacers content).getLast?
      = some '\n' := by
  rw [List.getLast?_append]
  rcases substituteValues_getLast? replacers content with hnil | hlast
  · rw [hnil, writeHeader_getLast?]
    rfl
  · rw [hlast]
    rfl

/-- C10: a successful run's content always ends with a newline, and the
body is the concatenation, over the scanned template lines, of the
rewritten line followed by exactly one appended newline (with dropped
directive-echo lines contributing nothing).  In particular a template
whose final line lacks a trailing newline still produces output ending
in one. -/
theorem run_output_newline_terminated
    (mapIter : List (List Char × List Char) → List (List Char × List Char))
    (keyNames outputFlag : List Char) (inputPaths : List (List Char))
    (sys : Sys) (path content : List Char)
    (h : run mapIter keyNames outputFlag inputPaths sys = .ok (path, content)) :
    content.getLast? = some '\n' ∧
    ∃ (replacers : List (List Char × List Char)) (template : List Char),
      content = writeHeader keyNames outputFlag ++
        ((scanLines template).map fun line =>
          if isGenerateDirective line then []
          else applyReplacers replacers line ++ ['\n']).flatten := by
  obtain ⟨env, stat, fs⟩ := sys
  cases hload : loadKeyValues (splitOnChar ',' keyNames) env with
  | error e => simp [run, hload] at h
  | ok kv =>
    match inputPaths with
    | [] => simp [run, hload] at h
    | p :: q :: t => simp [run, hload] at h
    | [p] =>
      cases hs : stat p with
      | absent => simp [run, hload, hs] at h
      | dir => simp [run, hload, hs] at h
      | file =>
        simp only [run, hload, hs] at h
        cases hread : fs (p ++ ".safekeeper".toList) with
        | none => rw [hread] at h; simp at h
        | some template =>
          rw [hread] at h
          simp only [Except.ok.injEq, Prod.mk.injEq] at h
          obtain ⟨-, hcontent⟩ := h
          subst hcontent
          refine ⟨output_getLast? _ _ _ _, setupReplacers (mapIter kv.dedup), template, ?_⟩
          rw [substituteValues_eq_flatten]

/-- Witness for C10: a template with no final newline still yields
newline-terminated output of the stated shape. -/
theorem run_output_newline_terminated_witness :
    (run id "A".toList [] [['f']]
        ⟨fun j => if j = "A".toList then "1".toList else [],
          fun _ => .file,
          fun q => if q = ('f' :: ".safekeeper".toList)
            then some "x=ENV_A".toList else none⟩
      = .ok (['f'], writeHeader "A".toList [] ++ "x=1\n".toList)) ∧
    ((writeHeader "A".toList [] ++ "x=1\n".toList).getLast? = some '\n' ∧
      ∃ (replacers : List (List Char × List Char)) (template : List Char),
        writeHeader "A".toList [] ++ "x=1\n".toList
          = writeHeader "A".toList [] ++
            ((scanLines template).map fun line =>
              if isGenerateDirective line then []
              else applyReplacers replacers line ++ ['\n']).flatten) :=
  ⟨by decide,
    run_output_newline_terminated id "A".toList [] [['f']]
      ⟨fun j => if j = "A".toList then "1".toList else [],
        fun _ => .file,
        fun q => if q = ('f' :: ".safekeeper".toList)
          then some "x=ENV_A".toList else none⟩
      ['f'] (writeHeader "A".toList [] ++ "x=1\n".toList) (by decide)⟩

/-! ### Occurrences and the replacement scan -/

theorem infix_append_cases {p a b : List Char} (h : p <:+: a ++ b) :
    p <:+: a ∨ p <:+: b ∨
      ∃ p1 p2, p = p1 ++ p2 ∧ p1 ≠ [] ∧ p2 ≠ [] ∧ p1 <:+ a ∧ p2 <+: b := by
  obtain ⟨x, y, hxy⟩ := h
  by_cases h1 : a.length ≤ x.length
  · right
    left
    have hb := congrArg (List.drop a.length) hxy
    rw [List.drop_left, List.drop_append_eq_append_drop, List.drop_append_eq_append_drop] at hb
    have e1 : a.length - x.length = 0 := Nat.sub_eq_zero_of_le h1
    have e2 : a.length - (x ++ p).length = 0 := by
      rw [List.length_append]
      omega
    rw [e1, e2, List.drop_zero, List.drop_zero] at hb
    exact ⟨x.drop a.length, y, hb⟩
  · push_neg at h1
    by_cases h2 : x.length + p.length ≤ a.length
    · left
      have ha := congrArg (List.take a.length) hxy
      rw [List.take_left, List.take_append_eq_append_take, List.take_append_eq_append_take] at ha
      have e1 : List.take a.length x = x := List.take_of_length_le (le_of_lt h1)
      have e2 : List.take (a.length - x.length) p = p := List.take_of_length_le (by omega)
      rw [e1, e2] at ha
      exact ⟨x, List.take (a.length - (x ++ p).length) y, ha⟩
    · push_neg at h2
      right
      right
      refine ⟨p.take (a.length - x.length), p.drop (a.length - x.length),
        (List.take_append_drop _ p).symm, ?_, ?_, ?_, ?_⟩
      · intro hnil
        rw [List.take_eq_nil_iff] at hnil
        rcases hnil with hz | hz
        · omega
        · rw [hz] at h2
          simp at h2
          omega
      · intro hnil
        rw [List.drop_eq_nil_iff] at hnil
        omega
      · have ha := congrArg (List.take a.length) hxy
        rw [List.take_left, List.take_append_eq_append_take, List.take_append_eq_append_take] at ha
        have e1 : List.take a.length x = x := List.take_of_length_le (le_of_lt h1)
        have e3 : List.take (a.length - (x ++ p).length) y = [] := by
          have hz : a.length - (x ++ p).length = 0 := by
            rw [List.length_append]
            omega
          rw [hz, List.take_zero]
        rw [e1, e3, List.append_nil] at ha
        exact ⟨x, ha⟩
      · have hb := congrArg (List.drop a.length) hxy
        rw [List.drop_left, List.drop_append_eq_append_drop, List.drop_append_eq_append_drop] at hb
        have e1 : List.drop a.length x = [] := List.drop_of_length_le (le_of_lt h1)
        have e3 : List.drop (a.length - (x ++ p).length) y = y := by
          have hz : a.length - (x ++ p).length = 0 := by
            rw [List.length_append]
            omega
          rw [hz, List.drop_zero]
        rw [e1, e3, List.nil_append] at hb
        exact ⟨y, hb⟩

theorem replaceAll_append_left {pat : List Char} (val : List Char) {pre : List Char}
    (hd : ∀ c ∈ pre, c ∉ pat) (s : List Char) :
    replaceAll pat val (pre ++ s) = pre ++ replaceAll pat val s := by
  induction pre with
  | nil => simp
  | cons c pre ih =>
    have hc : c ∉ pat := hd c (List.mem_cons_self c pre)
    have hd' : ∀ a ∈ pre, a ∉ pat := fun a ha => hd a (List.mem_cons_of_mem c ha)
    have hnm : ¬(pat ≠ [] ∧ pat <+: (c :: (pre ++ s))) := by
      rintro ⟨hp, hpre⟩
      cases pat with
      | nil => exact hp rfl
      | cons a pt =>
        have := (List.cons_prefix_cons.mp hpre).1
        exact hc (this ▸ List.mem_cons_self a pt)
    rw [List.cons_append, replaceAll_neg val hnm, ih hd']
    rfl

theorem prefix_reflect (pat val : List Char) (hval : val ≠ []) :
    ∀ (n : Nat) (s q : List Char), s.length ≤ n → q ≠ [] →
      (∀ a ∈ q, a ∉ val) → q <+: replaceAll pat val s → q <+: s := by
  intro n
  induction n with
  | zero =>
    intro s q hn hq _ hpre
    have hs : s = [] := List.length_eq_zero.mp (Nat.le_zero.mp hn)
    subst hs
    rw [replaceAll_nil] at hpre
    exact absurd (List.prefix_nil.mp hpre) hq
  | succ n ih =>
    intro s q hn hq hd hpre
    match s with
    | [] =>
      rw [replaceAll_nil] at hpre
      exact absurd (List.prefix_nil.mp hpre) hq
    | c :: rest =>
      by_cases hm : pat ≠ [] ∧ pat <+: (c :: rest)
      · exfalso
        rw [replaceAll_pos val hm.1 hm.2] at hpre
        match q, hq, val, hval with
        | a :: q', _, b :: v', _ =>
          have hab : a = b := by
            rw [List.cons_append] at hpre
            exact (List.cons_prefix_cons.mp hpre).1
          exact hd a (List.mem_cons_self a q') (hab ▸ List.mem_cons_self b v')
      · rw [replaceAll_neg val hm] at hpre
        match q, hq with
        | a :: q', _ =>
          obtain ⟨hac, hq'⟩ := List.cons_prefix_cons.mp hpre
          subst hac
          by_cases hq'e : q' = []
          · subst hq'e
            exact List.cons_prefix_cons.mpr ⟨rfl, List.nil_prefix⟩
          · have hd' : ∀ x ∈ q', x ∉ val := fun x hx => hd x (List.mem_cons_of_mem a hx)
            have hlen : rest.length ≤ n := by
              simp only [List.length_cons] at hn
              omega
            exact List.cons_prefix_cons.mpr ⟨rfl, ih rest q' hlen hq'e hd' hq'⟩

theorem not_infix_replaceAll_self {pat val : List Char} (hp : pat ≠ [])
    (hval : val ≠ []) (hd : ∀ c ∈ val, c ∉ pat) :
    ∀ (n : Nat) (s : List Char), s.length ≤ n → ¬ pat <:+: replaceAll pat val s := by
  intro n
  induction n with
  | zero =>
    intro s hn hin
    have hs : s = [] := List.length_eq_zero.mp (Nat.le_zero.mp hn)
    subst hs
    rw [replaceAll_nil] at hin
    exact hp (List.infix_nil.mp hin)
  | succ n ih =>
    intro s hn hin
    match s with
    | [] =>
      rw [replaceAll_nil] at hin
      exact hp (List.infix_nil.mp hin)
    | c :: rest =>
      by_cases hm : pat ≠ [] ∧ pat <+: (c :: rest)
      · rw [replaceAll_pos val hm.1 hm.2] at hin
        have hdrop : ((c :: rest).drop pat.length).length ≤ n := by
          have hp1 : 0 < pat.length := List.length_pos.mpr hp
          simp only [List.length_drop, List.length_cons] at *
          omega
        rcases infix_append_cases hin with hv | hr | ⟨p1, p2, hpp, hp1, _, hsuf, _⟩
        · cases pat with
          | nil => exact hp rfl
          | cons a pt =>
            exact hd a (hv.subset (List.mem_cons_self a pt)) (List.mem_cons_self a pt)
        · exact ih _ hdrop hr
        · cases p1 with
          | nil => exact hp1 rfl
          | cons a p1' =>
            have ha_val : a ∈ val := hsuf.subset (List.mem_cons_self a p1')
            have ha_pat : a ∈ pat := by
              rw [hpp]
              exact List.mem_append_left _ (List.mem_cons_self a p1')
            exact hd a ha_val ha_pat
      · rw [replaceAll_neg val hm] at hin
        rcases List.infix_cons_iff.mp hin with hpre | hr
        · cases pat with
          | nil => exact hp rfl
          | cons a pt =>
            obtain ⟨hac, hpt⟩ := List.cons_prefix_cons.mp hpre
            by_cases hpt_nil : pt = []
            · subst hpt_nil
              exact hm ⟨hp, by
                subst hac
                exact List.cons_prefix_cons.mpr ⟨rfl, List.nil_prefix⟩⟩
            · have hd' : ∀ x ∈ pt, x ∉ val := fun x hx hv =>
                hd x hv (List.mem_cons_of_mem a hx)
              have hrefl := prefix_reflect (a :: pt) val hval rest.length rest pt
                (Nat.le_refl _) hpt_nil hd' hpt
              exact hm ⟨hp, by
                subst hac
                exact List.cons_prefix_cons.mpr ⟨rfl, hrefl⟩⟩
        · have hlen : rest.length ≤ n := by
            simp only [List.length_cons] at hn
            omega
          exact ih rest hlen hr

theorem not_infix_replaceAll_other {tok pat val : List Char} (htok : tok ≠ [])
    (hval : val ≠ []) (hd : ∀ c ∈ val, c ∉ tok) :
    ∀ (n : Nat) (s : List Char), s.length ≤ n → ¬ tok <:+: s →
      ¬ tok <:+: replaceAll pat val s := by
  intro n
  induction n with
  | zero =>
    intro s hn hs hin
    have hnil : s = [] := List.length_eq_zero.mp (Nat.le_zero.mp hn)
    subst hnil
    rw [replaceAll_nil] at hin
    exact htok (List.infix_nil.mp hin)
  | succ n ih =>
    intro s hn hs hin
    match s with
    | [] =>
      rw [replaceAll_nil] at hin
      exact htok (List.infix_nil.mp hin)
    | c :: rest =>
      by_cases hm : pat ≠ [] ∧ pat <+: (c :: rest)
      · rw [replaceAll_pos val hm.1 hm.2] at hin
        have hdrop : ((c :: rest).drop pat.length).length ≤ n := by
          have hp1 : 0 < pat.length := List.length_pos.mpr hm.1
          simp only [List.length_drop, List.length_cons] at *
          omega
        have hs' : ¬ tok <:+: (c :: rest).drop pat.length := fun h =>
          hs (h.trans (List.drop_suffix _ _).isInfix)
        rcases infix_append_cases hin with hv | hr | ⟨p1, p2, hpp, hp1, _, hsuf, _⟩
        · cases tok with
          | nil => exact htok rfl
          | cons a tt =>
            exact hd a (hv.subset (List.mem_cons_self a tt)) (List.mem_cons_self a tt)
        · exact ih _ hdrop hs' hr
        · cases p1 with
          | nil => exact hp1 rfl
          | cons a p1' =>
            have ha_val : a ∈ val := hsuf.subset (List.mem_cons_self a p1')
            have ha_tok : a ∈ tok := by
              rw [hpp]
              exact List.mem_append_left _ (List.mem_cons_self a p1')
            exact hd a ha_val ha_tok
      · rw [replaceAll_neg val hm] at hin
        rcases List.infix_cons_iff.mp hin with hpre | hr
        · cases tok with
          | nil => exact htok rfl
          | cons a tt =>
            obtain ⟨hac, htt⟩ := List.cons_prefix_cons.mp hpre
            subst hac
            by_cases htt_nil : tt = []
            · subst htt_nil
              exact hs (List.IsPrefix.isInfix
                (List.cons_prefix_cons.mpr ⟨rfl, List.nil_prefix⟩))
            · have hd' : ∀ x ∈ tt, x ∉ val := fun x hx hv =>
                hd x hv (List.mem_cons_of_mem a hx)
              have hrefl := prefix_reflect pat val hval rest.length rest tt
                (Nat.le_refl _) htt_nil hd' htt
              exact hs (List.IsPrefix.isInfix (List.cons_prefix_cons.mpr ⟨rfl, hrefl⟩))
        · have hlen : rest.length ≤ n := by
            simp only [List.length_cons] at hn
            omega
          have hs' : ¬ tok <:+: rest := fun h => hs (List.infix_cons_iff.mpr (Or.inr h))
          exact ih rest hlen hs' hr

theorem replaceAll_skip (pat val : List Char) :
    ∀ (k : Nat) (s : List Char), k ≤ s.length →
      (∀ i, i < k → ¬ pat <+: s.drop i) →
      replaceAll pat val s = s.take k ++ replaceAll pat val (s.drop k) := by
  intro k
  induction k with
  | zero =>
    intro s _ _
    simp
  | succ k ih =>
    intro s hk hno
    match s with
    | [] => simp at hk
    | c :: rest =>
      have h0 : ¬ pat <+: (c :: rest) := by
        have := hno 0 (Nat.succ_pos k)
        simpa using this
      have hnm : ¬(pat ≠ [] ∧ pat <+: (c :: rest)) := fun h => h0 h.2
      rw [replaceAll_neg val hnm]
      have hk' : k ≤ rest.length := by
        simp only [List.length_cons] at hk
        omega
      have hno' : ∀ i, i < k → ¬ pat <+: rest.drop i := by
        intro i hi
        have := hno (i + 1) (by omega)
        simpa using this
      rw [ih rest hk' hno']
      simp

/-! ### Non-overlapping patterns -/

theorem overlaps_comm (t1 t2 : List Char) : overlaps t1 t2 = overlaps t2 t1 := by
  have hb : ∀ (a b c d : Bool), (a || b || c || d) = (b || a || d || c) := by decide
  rw [overlaps, overlaps, hb]

theorem not_overlaps_not_infix {t1 t2 : List Char} (h : overlaps t1 t2 = false) :
    ¬ t1 <:+: t2 := by
  intro hin
  rw [overlaps] at h
  simp only [Bool.or_eq_false_iff] at h
  obtain ⟨⟨_, hC⟩, _⟩ := h
  obtain ⟨t, hpre, hsuf⟩ := List.infix_iff_prefix_suffix.mp hin
  have : t2.tails.any t1.isPrefixOf = true :=
    List.any_eq_true.mpr ⟨t, (List.mem_tails t t2).mpr hsuf,
      List.isPrefixOf_iff_prefix.mpr hpre⟩
  rw [this] at hC
  exact Bool.noConfusion hC

theorem not_overlaps_suffix_one {t1 t2 : List Char} (h : overlaps t1 t2 = false) :
    ∀ w, w ≠ [] → w <:+ t1 → ¬ w <+: t2 := by
  intro w hw hsuf hpre
  rw [overlaps] at h
  simp only [Bool.or_eq_false_iff] at h
  obtain ⟨⟨⟨hA, _⟩, _⟩, _⟩ := h
  have : (t1.tails.any fun w => !w.isEmpty && w.isPrefixOf t2) = true := by
    refine List.any_eq_true.mpr ⟨w, (List.mem_tails w t1).mpr hsuf, ?_⟩
    have h1 : w.isEmpty = false := by
      cases w with
      | nil => exact absurd rfl hw
      | cons a l => rfl
    rw [h1, List.isPrefixOf_iff_prefix.mpr hpre]
    rfl
  rw [this] at hA
  exact Bool.noConfusion hA

theorem not_overlaps_suffix_two {t1 t2 : List Char} (h : overlaps t1 t2 = false) :
    ∀ w, w ≠ [] → w <:+ t2 → ¬ w <+: t1 := by
  have h' : overlaps t2 t1 = false := (overlaps_comm t2 t1).trans h
  exact not_overlaps_suffix_one h'

theorem not_overlaps_both_match {t1 t2 s : List Char}
    (h : overlaps t1 t2 = false) (hp1 : t1 <+: s) (hp2 : t2 <+: s) : False := by
  rcases Nat.le_total t1.length t2.length with hl | hl
  · exact not_overlaps_not_infix h
      (List.IsPrefix.isInfix (List.prefix_of_prefix_length_le hp1 hp2 hl))
  · have h' : overlaps t2 t1 = false := (overlaps_comm t2 t1).trans h
    exact not_overlaps_not_infix h'
      (List.IsPrefix.isInfix (List.prefix_of_prefix_length_le hp2 hp1 hl))

theorem not_overlaps_no_inner_match {t1 t2 s : List Char}
    (h : overlaps t1 t2 = false) (hp2 : t2 <+: s) {j : Nat}
    (hj2 : j < t2.length) : ¬ t1 <+: s.drop j := by
  intro ht1
  have ht2eq : List.take t2.length s = t2 := (List.prefix_iff_eq_take.mp hp2).symm
  have hdt : List.drop j t2 = List.take (t2.length - j) (List.drop j s) := by
    conv_lhs => rw [← ht2eq]
    rw [List.drop_take]
  have ht1eq : List.take t1.length (List.drop j s) = t1 :=
    (List.prefix_iff_eq_take.mp ht1).symm
  by_cases hc : j + t1.length ≤ t2.length
  · apply not_overlaps_not_infix h
    have hth : List.take t1.length (List.drop j t2) = t1 := by
      rw [hdt, List.take_take]
      have hm : t1.length ⊓ (t2.length - j) = t1.length := inf_eq_left.mpr (by omega)
      rw [hm, ht1eq]
    have hpre : t1 <+: List.drop j t2 := List.prefix_iff_eq_take.mpr hth.symm
    exact List.infix_iff_prefix_suffix.mpr ⟨List.drop j t2, hpre, List.drop_suffix j t2⟩
  · push_neg at hc
    apply not_overlaps_suffix_two h (List.drop j t2) ?_ (List.drop_suffix j t2) ?_
    · intro hnil
      rw [List.drop_eq_nil_iff] at hnil
      omega
    · have heq : List.drop j t2 = List.take (t2.length - j) t1 := by
        rw [hdt, ← ht1eq, List.take_take]
        congr 1
        exact (inf_eq_left.mpr (by omega)).symm
      rw [heq]
      exact List.take_prefix _ _

/-! ### Equation lemmas for `replaceSim2` -/

theorem replaceSim2F_congr (p1 v1 p2 v2 : List Char) :
    ∀ (n m : Nat) (s : List Char), s.length ≤ n → s.length ≤ m →
      replaceSim2F n p1 v1 p2 v2 s = replaceSim2F m p1 v1 p2 v2 s := by
  intro n
  induction n with
  | zero =>
    intro m s hn _
    have hs : s = [] := List.length_eq_zero.mp (Nat.le_zero.mp hn)
    subst hs
    cases m <;> rfl
  | succ n ih =>
    intro m s hn hm
    match s, m with
    | [], 0 => rfl
    | [], m + 1 => rfl
    | c :: rest, 0 => simp at hm
    | c :: rest, m + 1 =>
      simp only [replaceSim2F]
      by_cases h1 : p1 ≠ [] ∧ p1 <+: (c :: rest)
      · rw [if_pos h1, if_pos h1]
        have hp : 0 < p1.length := List.length_pos.mpr h1.1
        have hlen : ((c :: rest).drop p1.length).length ≤ n := by
          simp only [List.length_drop, List.length_cons] at *
          omega
        have hlen' : ((c :: rest).drop p1.length).length ≤ m := by
          simp only [List.length_drop, List.length_cons] at *
          omega
        rw [ih _ _ hlen hlen']
      · rw [if_neg h1, if_neg h1]
        by_cases h2 : p2 ≠ [] ∧ p2 <+: (c :: rest)
        · rw [if_pos h2, if_pos h2]
          have hp : 0 < p2.length := List.length_pos.mpr h2.1
          have hlen : ((c :: rest).drop p2.length).length ≤ n := by
            simp only [List.length_drop, List.length_cons] at *
            omega
          have hlen' : ((c :: rest).drop p2.length).length ≤ m := by
            simp only [List.length_drop, List.length_cons] at *
            omega
          rw [ih _ _ hlen hlen']
        · rw [if_neg h2, if_neg h2]
          have hlen : rest.length ≤ n := by
            simp only [List.length_cons] at hn
            omega
          have hlen' : rest.length ≤ m := by
            simp only [List.length_cons] at hm
            omega
          rw [ih _ _ hlen hlen']

theorem replaceSim2_nil (p1 v1 p2 v2 : List Char) :
    replaceSim2 p1 v1 p2 v2 [] = [] := rfl

theorem replaceSim2_pos1 {p1 : List Char} (v1 p2 v2 : List Char) {s : List Char}
    (hp : p1 ≠ []) (hpre : p1 <+: s) :
    replaceSim2 p1 v1 p2 v2 s = v1 ++ replaceSim2 p1 v1 p2 v2 (s.drop p1.length) := by
  match s with
  | [] => exact absurd (List.prefix_nil.mp hpre) hp
  | c :: rest =>
    show replaceSim2F (c :: rest).length p1 v1 p2 v2 (c :: rest) = _
    simp only [List.length_cons, replaceSim2F, if_pos (And.intro hp hpre)]
    congr 1
    apply replaceSim2F_congr
    · have hp1 : 0 < p1.length := List.length_pos.mpr hp
      simp only [List.length_drop, List.length_cons]
      omega
    · exact Nat.le_refl _

theorem replaceSim2_pos2 {p1 : List Char} (v1 : List Char) {p2 : List Char}
    (v2 : List Char) {s : List Char} (hno1 : ¬(p1 ≠ [] ∧ p1 <+: s))
    (hp : p2 ≠ []) (hpre : p2 <+: s) :
    replaceSim2 p1 v1 p2 v2 s = v2 ++ replaceSim2 p1 v1 p2 v2 (s.drop p2.length) := by
  match s with
  | [] => exact absurd (List.prefix_nil.mp hpre) hp
  | c :: rest =>
    show replaceSim2F (c :: rest).length p1 v1 p2 v2 (c :: rest) = _
    simp only [List.length_cons, replaceSim2F, if_neg hno1, if_pos (And.intro hp hpre)]
    congr 1
    apply replaceSim2F_congr
    · have hp2 : 0 < p2.length := List.length_pos.mpr hp
      simp only [List.length_drop, List.length_cons]
      omega
    · exact Nat.le_refl _

theorem replaceSim2_neg {p1 : List Char} (v1 : List Char) {p2 : List Char}
    (v2 : List Char) {c : Char} {rest : List Char}
    (hno1 : ¬(p1 ≠ [] ∧ p1 <+: (c :: rest))) (hno2 : ¬(p2 ≠ [] ∧ p2 <+: (c :: rest))) :
    replaceSim2 p1 v1 p2 v2 (c :: rest) = c :: replaceSim2 p1 v1 p2 v2 rest := by
  show replaceSim2F (c :: rest).length p1 v1 p2 v2 (c :: rest) = _
  simp only [List.length_cons, replaceSim2F, if_neg hno1, if_neg hno2]
  rfl

/-! ### Two replacers applied in sequence -/

theorem seq_eq_sim (p1 v1 p2 v2 : List Char) (hp1 : p1 ≠ []) (hp2 : p2 ≠ [])
    (hv1 : v1 ≠ []) (hno : overlaps p1 p2 = false) (hd12 : ∀ c ∈ v1, c ∉ p2) :
    ∀ (n : Nat) (s : List Char), s.length ≤ n →
      replaceAll p2 v2 (replaceAll p1 v1 s) = replaceSim2 p1 v1 p2 v2 s := by
  intro n
  induction n with
  | zero =>
    intro s hn
    have hs : s = [] := List.length_eq_zero.mp (Nat.le_zero.mp hn)
    subst hs
    rw [replaceAll_nil, replaceAll_nil, replaceSim2_nil]
  | succ n ih =>
    intro s hn
    match s with
    | [] => rw [replaceAll_nil, replaceAll_nil, replaceSim2_nil]
    | c :: rest =>
      by_cases hm1 : p1 <+: (c :: rest)
      · have hlen : ((c :: rest).drop p1.length).length ≤ n := by
          have hpos := List.length_pos.mpr hp1
          simp only [List.length_drop, List.length_cons] at *
          omega
        rw [replaceAll_pos v1 hp1 hm1,
          replaceAll_append_left v2 hd12 (replaceAll p1 v1 ((c :: rest).drop p1.length)),
          ih _ hlen, replaceSim2_pos1 v1 p2 v2 hp1 hm1]
      · by_cases hm2 : p2 <+: (c :: rest)
        · have hskip : replaceAll p1 v1 (c :: rest)
              = List.take p2.length (c :: rest)
                ++ replaceAll p1 v1 ((c :: rest).drop p2.length) := by
            apply replaceAll_skip p1 v1 p2.length (c :: rest) hm2.length_le
            intro i hi
            cases Nat.eq_zero_or_pos i with
            | inl h0 =>
              subst h0
              simpa using hm1
            | inr hpos => exact not_overlaps_no_inner_match hno hm2 hi
          have htake : List.take p2.length (c :: rest) = p2 :=
            (List.prefix_iff_eq_take.mp hm2).symm
          have hlen : ((c :: rest).drop p2.length).length ≤ n := by
            have hpos := List.length_pos.mpr hp2
            simp only [List.length_drop, List.length_cons] at *
            omega
          rw [hskip, htake,
            replaceAll_pos v2 hp2 (List.prefix_append p2 _), List.drop_left,
            ih _ hlen, replaceSim2_pos2 v1 v2 (fun hq => hm1 hq.2) hp2 hm2]
        · have hnm1 : ¬(p1 ≠ [] ∧ p1 <+: (c :: rest)) := fun hq => hm1 hq.2
          have houter : ¬(p2 ≠ [] ∧ p2 <+: (c :: replaceAll p1 v1 rest)) := by
            rintro ⟨-, hpre⟩
            cases p2 with
            | nil => exact hp2 rfl
            | cons b p2t =>
              obtain ⟨hbc, hbt⟩ := List.cons_prefix_cons.mp hpre
              by_cases hp2t : p2t = []
              · subst hp2t
                apply hm2
                subst hbc
                exact List.cons_prefix_cons.mpr ⟨rfl, List.nil_prefix⟩
              · have hdq : ∀ x ∈ p2t, x ∉ v1 := fun x hx hv =>
                  hd12 x hv (List.mem_cons_of_mem b hx)
                have hrefl := prefix_reflect p1 v1 hv1 rest.length rest p2t
                  (Nat.le_refl _) hp2t hdq hbt
                apply hm2
                subst hbc
                exact List.cons_prefix_cons.mpr ⟨rfl, hrefl⟩
          have hlen : rest.length ≤ n := by
            simp only [List.length_cons] at hn
            omega
          rw [replaceAll_neg v1 hnm1, replaceAll_neg v2 houter, ih rest hlen,
            replaceSim2_neg v1 v2 hnm1 (fun hq => hm2 hq.2)]

theorem sim_swap (p1 v1 p2 v2 : List Char) (hno : overlaps p1 p2 = false) :
    ∀ (n : Nat) (s : List Char), s.length ≤ n →
      replaceSim2 p1 v1 p2 v2 s = replaceSim2 p2 v2 p1 v1 s := by
  intro n
  induction n with
  | zero =>
    intro s hn
    have hs : s = [] := List.length_eq_zero.mp (Nat.le_zero.mp hn)
    subst hs
    rw [replaceSim2_nil, replaceSim2_nil]
  | succ n ih =>
    intro s hn
    match s with
    | [] => rw [replaceSim2_nil, replaceSim2_nil]
    | c :: rest =>
      by_cases h1 : p1 ≠ [] ∧ p1 <+: (c :: rest)
      · by_cases h2 : p2 ≠ [] ∧ p2 <+: (c :: rest)
        · exact (not_overlaps_both_match hno h1.2 h2.2).elim
        · have hlen : ((c :: rest).drop p1.length).length ≤ n := by
            have hpos := List.length_pos.mpr h1.1
            simp only [List.length_drop, List.length_cons] at *
            omega
          rw [replaceSim2_pos1 v1 p2 v2 h1.1 h1.2,
            replaceSim2_pos2 v2 v1 h2 h1.1 h1.2, ih _ hlen]
      · by_cases h2 : p2 ≠ [] ∧ p2 <+: (c :: rest)
        · have hlen : ((c :: rest).drop p2.length).length ≤ n := by
            have hpos := List.length_pos.mpr h2.1
            simp only [List.length_drop, List.length_cons] at *
            omega
          rw [replaceSim2_pos2 v1 v2 h1 h2.1 h2.2,
            replaceSim2_pos1 v2 p1 v1 h2.1 h2.2, ih _ hlen]
        · have hlen : rest.length ≤ n := by
            simp only [List.length_cons] at hn
            omega
          rw [replaceSim2_neg v1 v2 h1 h2, replaceSim2_neg v2 v1 h2 h1, ih rest hlen]

/-- Two single-pattern replacers commute on every string when their
patterns cannot overlap and neither replacement value shares a character
with the other pattern. -/
theorem replaceAll_comm {p1 v1 p2 v2 : List Char} (hp1 : p1 ≠ []) (hp2 : p2 ≠ [])
    (hv1 : v1 ≠ []) (hv2 : v2 ≠ []) (hno : overlaps p1 p2 = false)
    (hd12 : ∀ c ∈ v1, c ∉ p2) (hd21 : ∀ c ∈ v2, c ∉ p1) (s : List Char) :
    replaceAll p2 v2 (replaceAll p1 v1 s) = replaceAll p1 v1 (replaceAll p2 v2 s) := by
  have h21 : overlaps p2 p1 = false := (overlaps_comm p2 p1).trans hno
  rw [seq_eq_sim p1 v1 p2 v2 hp1 hp2 hv1 hno hd12 s.length s (Nat.le_refl _),
    seq_eq_sim p2 v2 p1 v1 hp2 hp1 hv2 h21 hd21 s.length s (Nat.le_refl _),
    sim_swap p1 v1 p2 v2 hno s.length s (Nat.le_refl _)]

/-! ### Tokens across a whole replacer list -/

theorem applyReplacers_cons (r : List Char × List Char)
    (rest : List (List Char × List Char)) (line : List Char) :
    applyReplacers (r :: rest) line = applyReplacers rest (replaceAll r.1 r.2 line) := rfl

theorem applyReplacers_not_infix {tok : List Char} (htok : tok ≠ [])
    (replacers : List (List Char × List Char)) :
    ∀ (line : List Char),
      (∀ r ∈ replacers, r.2 ≠ [] ∧ ∀ c ∈ r.2, c ∉ tok) →
      ¬ tok <:+: line → ¬ tok <:+: applyReplacers replacers line := by
  induction replacers with
  | nil => exact fun line _ hline => hline
  | cons r rest ih =>
    intro line hrs hline
    have hr := hrs r (List.mem_cons_self r rest)
    have hrest : ∀ x ∈ rest, x.2 ≠ [] ∧ ∀ c ∈ x.2, c ∉ tok :=
      fun x hx => hrs x (List.mem_cons_of_mem r hx)
    have hstep : ¬ tok <:+: replaceAll r.1 r.2 line :=
      not_infix_replaceAll_other htok hr.1 hr.2 line.length line (Nat.le_refl _) hline
    rw [applyReplacers_cons]
    exact ih _ hrest hstep

theorem applyReplacers_no_token {e : List Char × List Char} (hp : e.1 ≠ []) :
    ∀ (replacers : List (List Char × List Char)) (line : List Char), e ∈ replacers →
      (∀ r ∈ replacers, r.2 ≠ [] ∧ ∀ c ∈ r.2, c ∉ e.1) →
      ¬ e.1 <:+: applyReplacers replacers line := by
  intro replacers
  induction replacers with
  | nil =>
    intro line he
    exact absurd he (List.not_mem_nil e)
  | cons r rest ih =>
    intro line he hgood
    have hrest : ∀ x ∈ rest, x.2 ≠ [] ∧ ∀ c ∈ x.2, c ∉ e.1 :=
      fun x hx => hgood x (List.mem_cons_of_mem r hx)
    rw [applyReplacers_cons]
    rcases List.mem_cons.mp he with he1 | he2
    · have hr := hgood r (List.mem_cons_self r rest)
      have hself : ¬ e.1 <:+: replaceAll r.1 r.2 line := by
        rw [he1]
        exact not_infix_replaceAll_self (he1 ▸ hp) (he1 ▸ hr.1) (he1 ▸ hr.2)
          line.length line (Nat.le_refl _)
      exact applyReplacers_not_infix hp rest _ hrest hself
    · exact ih _ he2 hrest

theorem flatten_chunks_no_token {tok : List Char} (htok : tok ≠ [])
    (hnl : ('\n' : Char) ∉ tok) :
    ∀ chunks : List (List Char),
      (∀ ch ∈ chunks, ch = [] ∨ ∃ t, ch = t ++ ['\n'] ∧ ¬ tok <:+: t) →
      ¬ tok <:+: chunks.flatten := by
  intro chunks
  induction chunks with
  | nil =>
    intro _ hin
    exact htok (List.infix_nil.mp hin)
  | cons ch rest ih =>
    intro hc hin
    have hrest : ∀ x ∈ rest, x = [] ∨ ∃ t, x = t ++ ['\n'] ∧ ¬ tok <:+: t :=
      fun x hx => hc x (List.mem_cons_of_mem ch hx)
    rw [List.flatten_cons] at hin
    rcases hc ch (List.mem_cons_self ch rest) with hchnil | ⟨t, hch, hnt⟩
    · subst hchnil
      rw [List.nil_append] at hin
      exact ih hrest hin
    · subst hch
      rcases infix_append_cases hin with h1 | h2 | ⟨q1, q2, hq, hq1, _, hsuf, _⟩
      · rcases infix_append_cases h1 with g1 | g2 | ⟨r1, r2, hr, _, hr2, _, hpre2⟩
        · exact hnt g1
        · cases tok with
          | nil => exact htok rfl
          | cons a tt =>
            have ha : a ∈ (['\n'] : List Char) :=
              g2.subset (List.mem_cons_self a tt)
            have : a = '\n' := by simpa using ha
            exact hnl (this ▸ List.mem_cons_self a tt)
        · cases r2 with
          | nil => exact hr2 rfl
          | cons a r2' =>
            have ha : a = '\n' := by
              have := (List.cons_prefix_cons.mp hpre2).1
              simpa using this
            apply hnl
            rw [hr]
            exact List.mem_append_right r1 (ha ▸ List.mem_cons_self a r2')
      · exact ih hrest h2
      · have hlast : q1.getLast hq1 = (t ++ ['\n']).getLast (by simp) :=
          hsuf.getLast hq1
        have hln : (t ++ ['\n']).getLast (by simp) = '\n' := by
          rw [List.getLast_append]
          rfl
        apply hnl
        rw [hq]
        apply List.mem_append_left
        rw [← hlast.trans hln]
        exact List.getLast_mem hq1

theorem loadKeyValues_ok_inv (keys : List (List Char)) (env : List Char → List Char) :
    ∀ kv, loadKeyValues keys env = .ok kv →
      kv = keys.map (fun k => (k, env k)) ∧ ∀ k ∈ keys, env k ≠ [] := by
  induction keys with
  | nil =>
    intro kv h
    simp only [loadKeyValues, Except.ok.injEq] at h
    subst h
    exact ⟨rfl, by simp⟩
  | cons key rest ih =>
    intro kv h
    simp only [loadKeyValues] at h
    by_cases hk : env key = []
    · rw [if_pos hk] at h
      exact absurd h (by simp)
    · rw [if_neg hk] at h
      cases hrec : loadKeyValues rest env with
      | error e =>
        rw [hrec] at h
        exact absurd h (by simp)
      | ok kvs =>
        rw [hrec] at h
        simp only [Except.ok.injEq] at h
        subst h
        obtain ⟨hmap, hall⟩ := ih kvs hrec
        refine ⟨by rw [hmap, List.map_cons], ?_⟩
        intro k hkmem
        rcases List.mem_cons.mp hkmem with hk1 | hk2
        · exact hk1 ▸ hk
        · exact hall k hk2

theorem replaceAll_of_not_infix {pat : List Char} (val : List Char) :
    ∀ (n : Nat) (s : List Char), s.length ≤ n → ¬ pat <:+: s →
      replaceAll pat val s = s := by
  intro n
  induction n with
  | zero =>
    intro s hn _
    have hs : s = [] := List.length_eq_zero.mp (Nat.le_zero.mp hn)
    subst hs
    exact replaceAll_nil pat val
  | succ n ih =>
    intro s hn hnin
    match s with
    | [] => exact replaceAll_nil pat val
    | c :: rest =>
      have hnm : ¬(pat ≠ [] ∧ pat <+: (c :: rest)) := by
        rintro ⟨-, hpre⟩
        exact hnin hpre.isInfix
      have hlen : rest.length ≤ n := by
        simp only [List.length_cons] at hn
        omega
      have hrest : ¬ pat <:+: rest := fun h => hnin (List.infix_cons_iff.mpr (Or.inr h))
      rw [replaceAll_neg val hnm, ih rest hlen hrest]

theorem applyReplacers_of_no_occurrence :
    ∀ (replacers : List (List Char × List Char)) (line : List Char),
      (∀ r ∈ replacers, ¬ r.1 <:+: line) → applyReplacers replacers line = line := by
  intro replacers
  induction replacers with
  | nil => exact fun line _ => rfl
  | cons r rest ih =>
    intro line hno
    rw [applyReplacers_cons,
      replaceAll_of_not_infix r.2 line.length line (Nat.le_refl _)
        (hno r (List.mem_cons_self r rest))]
    exact ih line (fun x hx => hno x (List.mem_cons_of_mem r hx))

/-! ### Substitution and map-iteration order -/

/-- C2 (amended): whenever every supplied key resolves to a non-empty
environment value the run succeeds; and when, in addition, no resolved
value shares a character with any resolved key's placeholder token, the
transformed body contains zero occurrences of any resolved key's
placeholder token.  Without that additional restriction a resolved value
containing a placeholder token survives into the output. -/
theorem run_resolved_keys_leave_no_placeholder
    (mapIter : List (List Char × List Char) → List (List Char × List Char))
    (keyNames outputFlag p template : List Char) (sys : Sys)
    (hfair : ∀ l, (mapIter l).Perm l)
    (henv : ∀ k ∈ splitOnChar ',' keyNames, sys.env k ≠ [])
    (hdisj : ∀ k ∈ splitOnChar ',' keyNames, ∀ c ∈ sys.env k,
      ∀ k' ∈ splitOnChar ',' keyNames, c ∉ envToken k')
    (hnl : ∀ k ∈ splitOnChar ',' keyNames, ('\n' : Char) ∉ k)
    (hstat : sys.stat p = .file)
    (hread : sys.read (p ++ ".safekeeper".toList) = some template) :
    ∃ body, run mapIter keyNames outputFlag [p] sys
        = .ok ((if outputFlag = [] then p else outputFlag),
            writeHeader keyNames outputFlag ++ body) ∧
      ∀ k ∈ splitOnChar ',' keyNames, ¬ envToken k <:+: body := by
  obtain ⟨env, stat, fs⟩ := sys
  simp only at henv hdisj hstat hread
  have hload := loadKeyValues_ok _ env henv
  refine ⟨substituteValues
    (setupReplacers (mapIter ((splitOnChar ',' keyNames).map
      (fun k => (k, env k))).dedup)) template, ?_, ?_⟩
  · simp only [run, hload, hstat]
    rw [hread]
  · intro k hk
    have htok : envToken k ≠ [] := by simp [envToken]
    have htnl : ('\n' : Char) ∉ envToken k := by
      intro hm
      rw [envToken] at hm
      rcases List.mem_append.mp hm with h1 | h2
      · exact absurd h1 (by decide)
      · exact hnl k hk h2
    have hekv : (k, env k) ∈ (splitOnChar ',' keyNames).map (fun k => (k, env k)) :=
      List.mem_map.mpr ⟨k, hk, rfl⟩
    have hem : (k, env k) ∈ mapIter ((splitOnChar ',' keyNames).map
        (fun k => (k, env k))).dedup :=
      ((hfair _).mem_iff).mpr (List.mem_dedup.mpr hekv)
    have her : (envToken k, env k) ∈ setupReplacers (mapIter ((splitOnChar ','
        keyNames).map (fun k => (k, env k))).dedup) :=
      List.mem_map.mpr ⟨(k, env k), hem, rfl⟩
    have hgood : ∀ r ∈ setupReplacers (mapIter ((splitOnChar ',' keyNames).map
        (fun k => (k, env k))).dedup), r.2 ≠ [] ∧ ∀ c ∈ r.2, c ∉ envToken k := by
      intro r hr
      obtain ⟨e, he, rfl⟩ := List.mem_map.mp hr
      have he' : e ∈ ((splitOnChar ',' keyNames).map (fun k => (k, env k))) :=
        List.mem_dedup.mp (((hfair _).mem_iff).mp he)
      obtain ⟨k', hk', hke⟩ := List.mem_map.mp he'
      subst hke
      exact ⟨henv k' hk', fun c hc => hdisj k' hk' c hc k hk⟩
    have hkill : ∀ line, ¬ envToken k <:+:
        applyReplacers (setupReplacers (mapIter ((splitOnChar ',' keyNames).map
          (fun k => (k, env k))).dedup)) line :=
      fun line => applyReplacers_no_token htok _ line her hgood
    rw [substituteValues_eq_flatten]
    apply flatten_chunks_no_token htok htnl
    intro ch hch
    obtain ⟨line, hline, rfl⟩ := List.mem_map.mp hch
    by_cases hdct : isGenerateDirective line
    · left
      simp [hdct]
    · right
      exact ⟨applyReplacers _ line, by simp [hdct], hkill line⟩

/-- C2 counterexample: with the single key A resolving to the non-empty
value xENV_Ax, the run succeeds but the produced output still contains
the placeholder token of the resolved key A. -/
theorem resolved_value_with_token_survives :
    (∀ k ∈ splitOnChar ',' "A".toList,
      (fun j => if j = "A".toList then "xENV_Ax".toList else ([] : List Char)) k ≠ []) ∧
    run id "A".toList [] [['f']]
        ⟨fun j => if j = "A".toList then "xENV_Ax".toList else [],
          fun _ => .file,
          fun q => if q = 'f' :: ".safekeeper".toList then some "ENV_A".toList else none⟩
      = .ok (['f'], writeHeader "A".toList [] ++ "xENV_Ax\n".toList) ∧
    envToken "A".toList <:+: "xENV_Ax\n".toList := by decide

/-- Witness for the amended C2: with values sharing no characters with
the tokens, the body is free of placeholder tokens. -/
theorem run_resolved_keys_leave_no_placeholder_witness :
    ∃ body, run id "A,B".toList [] [['f']]
        ⟨fun j => if j = "A".toList then "1".toList
            else if j = "B".toList then "2".toList else [],
          fun _ => .file,
          fun q => if q = 'f' :: ".safekeeper".toList
            then some "ENV_A-ENV_B".toList else none⟩
        = .ok (['f'], writeHeader "A,B".toList [] ++ body) ∧
      ∀ k ∈ splitOnChar ',' "A,B".toList, ¬ envToken k <:+: body :=
  run_resolved_keys_leave_no_placeholder id "A,B".toList [] ['f'] "ENV_A-ENV_B".toList
    ⟨fun j => if j = "A".toList then "1".toList
        else if j = "B".toList then "2".toList else [],
      fun _ => .file,
      fun q => if q = 'f' :: ".safekeeper".toList
        then some "ENV_A-ENV_B".toList else none⟩
    (fun l => List.Perm.refl l) (by decide) (by decide) (by decide) (by decide) (by decide)

/-- C3 (amended): the transformed body is built line by line: each
scanned line that is not a directive echo contributes its rewrite —
the replacers applied one after another in replacer-list order —
followed by exactly one appended newline, and lines are processed
independently, so substitution never spans line boundaries.  A line
containing no replacer's token passes through unchanged, and for a
single key the per-line rewrite is exactly the replacement of every
occurrence of that key's placeholder token. -/
theorem substituteValues_per_line (replacers : List (List Char × List Char))
    (content : List Char) :
    substituteValues replacers content =
      ((scanLines content).map fun line =>
        if isGenerateDirective line then []
        else applyReplacers replacers line ++ ['\n']).flatten ∧
    (∀ line, (∀ r ∈ replacers, ¬ r.1 <:+: line) →
      applyReplacers replacers line = line) ∧
    ∀ key value line, applyReplacers [(envToken key, value)] line
        = replaceAll (envToken key) value line :=
  ⟨substituteValues_eq_flatten replacers content,
    fun line hno => applyReplacers_of_no_occurrence replacers line hno,
    fun _ _ _ => rfl⟩

set_option maxRecDepth 8000 in
/-- C3 counterexample: with two keys whose tokens do not overlap, one
legitimate replacer order produces a body line that is not the input
line with every occurrence of each token replaced: replacing the one
occurrence of the token of A manufactures an occurrence of the token of
B, which the second replacer then rewrites as well. -/
theorem per_line_simultaneous_claim_fails :
    overlaps (envToken "A".toList) (envToken "B".toList) = false ∧
    (¬ envToken "B".toList <:+: "ENV_ENV_AB".toList) ∧
    replaceAll (envToken "A".toList) "B".toList "ENV_ENV_AB".toList
      = "ENV_BB".toList ∧
    replaceSim2 (envToken "A".toList) "B".toList (envToken "B".toList) "x".toList
      "ENV_ENV_AB".toList = "ENV_BB".toList ∧
    run id "A,B".toList [] [['f']]
        ⟨fun j => if j = "A".toList then "B".toList
            else if j = "B".toList then "x".toList else [],
          fun _ => .file,
          fun q => if q = 'f' :: ".safekeeper".toList
            then some "ENV_ENV_AB\n".toList else none⟩
      = .ok (['f'], writeHeader "A,B".toList [] ++ "xB\n".toList) ∧
    "xB".toList ≠ "ENV_BB".toList := by decide

/-- Witness for the amended C3 at a concrete replacer list and template. -/
theorem substituteValues_per_line_witness :
    substituteValues [(envToken "A".toList, "1".toList)] "x=ENV_A\nkeep".toList =
      ((scanLines "x=ENV_A\nkeep".toList).map fun line =>
        if isGenerateDirective line then []
        else applyReplacers [(envToken "A".toList, "1".toList)] line ++ ['\n']).flatten ∧
    (∀ line, (∀ r ∈ [(envToken "A".toList, "1".toList)], ¬ r.1 <:+: line) →
      applyReplacers [(envToken "A".toList, "1".toList)] line = line) ∧
    ∀ key value line, applyReplacers [(envToken key, value)] line
        = replaceAll (envToken key) value line :=
  substituteValues_per_line [(envToken "A".toList, "1".toList)] "x=ENV_A\nkeep".toList

/-- C8 (amended): the run is a pure function of the template, the
environment, the flags and the map iteration order, and it is moreover
independent of the map iteration order — so repeated runs are
byte-identical — provided that no two distinct keys have overlapping
placeholder tokens and that no resolved value shares a character with
any resolved key's placeholder token.  (Without the restriction on
values, different iteration orders can produce different bytes.) -/
theorem run_map_order_independent
    (mapIter₁ mapIter₂ : List (List Char × List Char) → List (List Char × List Char))
    (keyNames outputFlag : List Char) (inputPaths : List (List Char)) (sys : Sys)
    (hfair₁ : ∀ l, (mapIter₁ l).Perm l) (hfair₂ : ∀ l, (mapIter₂ l).Perm l)
    (hnov : ∀ k ∈ splitOnChar ',' keyNames, ∀ k' ∈ splitOnChar ',' keyNames,
      k ≠ k' → overlaps (envToken k) (envToken k') = false)
    (hdisj : ∀ k ∈ splitOnChar ',' keyNames, ∀ c ∈ sys.env k,
      ∀ k' ∈ splitOnChar ',' keyNames, c ∉ envToken k') :
    run mapIter₁ keyNames outputFlag inputPaths sys
      = run mapIter₂ keyNames outputFlag inputPaths sys := by
  obtain ⟨env, stat, fs⟩ := sys
  simp only at hdisj
  cases hload : loadKeyValues (splitOnChar ',' keyNames) env with
  | error e => simp [run, hload]
  | ok kv =>
    obtain ⟨hkv, hall⟩ := loadKeyValues_ok_inv _ env kv hload
    have hperm : (setupReplacers (mapIter₁ kv.dedup)).Perm
        (setupReplacers (mapIter₂ kv.dedup)) :=
      List.Perm.map _ ((hfair₁ kv.dedup).trans (hfair₂ kv.dedup).symm)
    have hmem : ∀ r ∈ setupReplacers (mapIter₁ kv.dedup),
        ∃ k ∈ splitOnChar ',' keyNames, r = (envToken k, env k) := by
      intro r hr
      obtain ⟨e, he, rfl⟩ := List.mem_map.mp hr
      have he' : e ∈ kv := List.mem_dedup.mp (((hfair₁ kv.dedup).mem_iff).mp he)
      rw [hkv] at he'
      obtain ⟨k, hk, hke⟩ := List.mem_map.mp he'
      exact ⟨k, hk, by rw [← hke]⟩
    have hbody : ∀ line, applyReplacers (setupReplacers (mapIter₁ kv.dedup)) line
        = applyReplacers (setupReplacers (mapIter₂ kv.dedup)) line := by
      intro line
      apply List.Perm.foldl_eq' hperm ?_ line
      intro x hx y hy z
      obtain ⟨kx, hkx, hex⟩ := hmem x hx
      obtain ⟨ky, hky, hey⟩ := hmem y hy
      subst hex
      subst hey
      by_cases hxy : kx = ky
      · subst hxy
        rfl
      · have h1 : envToken kx ≠ [] := by simp [envToken]
        have h2 : envToken ky ≠ [] := by simp [envToken]
        have hv1 : env kx ≠ [] := hall kx hkx
        have hv2 : env ky ≠ [] := hall ky hky
        have hno := hnov kx hkx ky hky hxy
        have hd12 : ∀ c ∈ env kx, c ∉ envToken ky := fun c hc => hdisj kx hkx c hc ky hky
        have hd21 : ∀ c ∈ env ky, c ∉ envToken kx := fun c hc => hdisj ky hky c hc kx hkx
        exact replaceAll_comm h1 h2 hv1 hv2 hno hd12 hd21 z
    match inputPaths with
    | [] => simp [run, hload]
    | q :: qq :: t => simp [run, hload]
    | [p] =>
      cases hs : stat p with
      | absent => simp [run, hload, hs]
      | dir => simp [run, hload, hs]
      | file =>
        simp only [run, hload, hs]
        cases fs (p ++ ".safekeeper".toList) with
        | none => rfl
        | some content =>
          have hsub : substituteValues (setupReplacers (mapIter₁ kv.dedup)) content
              = substituteValues (setupReplacers (mapIter₂ kv.dedup)) content := by
            rw [substituteValues_eq_flatten, substituteValues_eq_flatten]
            congr 1
            apply List.map_congr_left
            intro line _
            by_cases hdct : isGenerateDirective line
            · simp [hdct]
            · simp only [if_neg hdct, hbody line]
          simp only [hsub]

set_option maxRecDepth 8000 in
/-- C8 counterexample: two legitimate iteration orders of the same
replacer map give outputs that differ byte for byte on the same template
and environment, although the two placeholder tokens do not overlap; the
output is therefore not determined by template, environment and flags
alone. -/
theorem byte_identical_claim_fails :
    overlaps (envToken "A".toList) (envToken "B".toList) = false ∧
    (∀ l : List (List Char × List Char), (List.reverse l).Perm l) ∧
    run id "A,B".toList [] [['f']]
        ⟨fun j => if j = "A".toList then "B".toList
            else if j = "B".toList then "x".toList else [],
          fun _ => .file,
          fun q => if q = 'f' :: ".safekeeper".toList
            then some "ENV_ENV_AB\n".toList else none⟩
      ≠ run List.reverse "A,B".toList [] [['f']]
        ⟨fun j => if j = "A".toList then "B".toList
            else if j = "B".toList then "x".toList else [],
          fun _ => .file,
          fun q => if q = 'f' :: ".safekeeper".toList
            then some "ENV_ENV_AB\n".toList else none⟩ :=
  ⟨by decide, fun l => List.reverse_perm l, by decide⟩

set_option maxRecDepth 8000 in
/-- Witness for the amended C8: with token-disjoint values the identity
order and the reversed order give the same output. -/
theorem run_map_order_independent_witness :
    ((∀ l : List (List Char × List Char), (id l).Perm l) ∧
      (∀ l : List (List Char × List Char), (List.reverse l).Perm l)) ∧
    run id "A,B".toList [] [['f']]
        ⟨fun j => if j = "A".toList then "1".toList
            else if j = "B".toList then "2".toList else [],
          fun _ => .file,
          fun q => if q = 'f' :: ".safekeeper".toList
            then some "ENV_A-ENV_B".toList else none⟩
      = run List.reverse "A,B".toList [] [['f']]
        ⟨fun j => if j = "A".toList then "1".toList
            else if j = "B".toList then "2".toList else [],
          fun _ => .file,
          fun q => if q = 'f' :: ".safekeeper".toList
            then some "ENV_A-ENV_B".toList else none⟩ :=
  ⟨⟨fun l => List.Perm.refl l, fun l => List.reverse_perm l⟩,
    run_map_order_independent id List.reverse "A,B".toList [] [['f']]
      ⟨fun j => if j = "A".toList then "1".toList
          else if j = "B".toList then "2".toList else [],
        fun _ => .file,
        fun q => if q = 'f' :: ".safekeeper".toList
          then some "ENV_A-ENV_B".toList else none⟩
      (fun l => List.Perm.refl l) (fun l => List.reverse_perm l)
      (by decide) (by decide)⟩

/-- C4 (amended): a template line is omitted from the output body if and
only if it contains both the regeneration directive token and the tool
name, and every such line is dropped entirely — it contributes nothing
to the body.  The header's own directive line always contains both
tokens; and provided no replacement value shares a character with either
token string, substitution cannot manufacture a directive in a kept
line, so the header's directive is then the only directive present in
the output.  (A replacement value containing the directive text can
otherwise introduce a second directive.) -/
theorem directive_lines_dropped (replacers : List (List Char × List Char))
    (content keyNames outputFlag : List Char)
    (hval : ∀ r ∈ replacers, r.2 ≠ [] ∧ (∀ c ∈ r.2, c ∉ "go:generate".toList) ∧
      ∀ c ∈ r.2, c ∉ "safekeeper".toList) :
    substituteValues replacers content =
      ((scanLines content).map fun line =>
        if isGenerateDirective line then []
        else applyReplacers replacers line ++ ['\n']).flatten ∧
    isGenerateDirective (directiveLine keyNames outputFlag) ∧
    ∀ line ∈ scanLines content, ¬ isGenerateDirective line →
      ¬ isGenerateDirective (applyReplacers replacers line) := by
  refine ⟨substituteValues_eq_flatten replacers content, ⟨?_, ?_⟩, ?_⟩
  · have h1 : "//go:generate safekeeper --keys=".toList
        = "//".toList ++ "go:generate".toList ++ " safekeeper --keys=".toList := by
      decide
    refine ⟨"//".toList, " safekeeper --keys=".toList ++ keyNames
      ++ ((if outputFlag = [] then [] else " --output=".toList ++ outputFlag)
        ++ " $GOFILE".toList), ?_⟩
    rw [directiveLine, h1]
    simp [List.append_assoc]
  · have h1 : "//go:generate safekeeper --keys=".toList
        = "//go:generate ".toList ++ "safekeeper".toList ++ " --keys=".toList := by
      decide
    refine ⟨"//go:generate ".toList, " --keys=".toList ++ keyNames
      ++ ((if outputFlag = [] then [] else " --output=".toList ++ outputFlag)
        ++ " $GOFILE".toList), ?_⟩
    rw [directiveLine, h1]
    simp [List.append_assoc]
  · intro line _ hnd hdir
    rw [isGenerateDirective, not_and_or] at hnd
    rcases hnd with hA | hB
    · exact applyReplacers_not_infix (by decide) replacers line
        (fun r hr => ⟨(hval r hr).1, (hval r hr).2.1⟩) hA hdir.1
    · exact applyReplacers_not_infix (by decide) replacers line
        (fun r hr => ⟨(hval r hr).1, (hval r hr).2.2⟩) hB hdir.2

set_option maxRecDepth 8000 in
/-- C4 counterexample: the template line carrying the placeholder of K
is not a directive and is kept, but the resolved value of K contains the
directive text, so the output body contains a directive line besides the
header's — the header's directive is not the only one in the output. -/
theorem directive_only_in_header_claim_fails :
    (¬ isGenerateDirective "ENV_K".toList) ∧
    isGenerateDirective "//go:generate safekeeper x".toList ∧
    run id "K".toList [] [['f']]
        ⟨fun j => if j = "K".toList then "//go:generate safekeeper x".toList else [],
          fun _ => .file,
          fun q => if q = 'f' :: ".safekeeper".toList
            then some "ENV_K\n".toList else none⟩
      = .ok (['f'], writeHeader "K".toList []
          ++ "//go:generate safekeeper x\n".toList) := by decide

/-- Witness for the amended C4: a template with one directive echo and
one substituted line; the echo is dropped, the kept line stays free of
directive text. -/
theorem directive_lines_dropped_witness :
    (∀ r ∈ [(envToken "A".toList, "1".toList)],
      r.2 ≠ [] ∧ (∀ c ∈ r.2, c ∉ "go:generate".toList) ∧
      ∀ c ∈ r.2, c ∉ "safekeeper".toList) ∧
    (substituteValues [(envToken "A".toList, "1".toList)]
        "//go:generate safekeeper --keys=A\nx=ENV_A".toList =
      ((scanLines "//go:generate safekeeper --keys=A\nx=ENV_A".toList).map fun line =>
        if isGenerateDirective line then []
        else applyReplacers [(envToken "A".toList, "1".toList)] line ++ ['\n']).flatten ∧
    isGenerateDirective (directiveLine "A".toList []) ∧
    ∀ line ∈ scanLines "//go:generate safekeeper --keys=A\nx=ENV_A".toList,
      ¬ isGenerateDirective line →
      ¬ isGenerateDirective (applyReplacers [(envToken "A".toList, "1".toList)] line)) :=
  ⟨by decide,
    directive_lines_dropped [(envToken "A".toList, "1".toList)]
      "//go:generate safekeeper --keys=A\nx=ENV_A".toList "A".toList [] (by decide)⟩

end Safekeeper
